import Mathlib

/-!
Verification development for the procedural geometry engine of the
`generative_cover` repository: the deterministic value-noise / fBm field,
the flow-field line tracer, and the Catmull-Rom blob contour generator
found in `pic_scripts/organic_flowfield.py` and
`pic_scripts/organic_with_blobs.py` (the two files contain byte-identical
copies of the noise helpers).

Embedding conventions: Python arbitrary-precision integers are modelled as
`ℤ` (with explicit two's-complement bit operations matching Python `^`,
`>>`, `<<`, `&`), Python floats as `ℝ`, Python lists as `List`, and the
`raise ValueError` paths as `Except String`.
-/

namespace Organic

/-! ### Python integer bit operations

Python integers are arbitrary-precision two's complement: a negative value
`-(a+1)` behaves as the bitwise complement of `a` with infinite sign
extension.  `Int.negSucc a` denotes `-(a+1)`, so the four cases below are
exactly Python's `^`; `>>` is the arithmetic (floor) shift and `<<`/`& 0xFFFFFFFF`
are multiplication by, resp. the low 32 bits of the two's-complement
representation. -/

/-- Python `^` (bitwise xor) on arbitrary-precision integers. -/
def pyXor : ℤ → ℤ → ℤ
  | Int.ofNat a, Int.ofNat b => Int.ofNat (a ^^^ b)
  | Int.ofNat a, Int.negSucc b => Int.negSucc (a ^^^ b)
  | Int.negSucc a, Int.ofNat b => Int.negSucc (a ^^^ b)
  | Int.negSucc a, Int.negSucc b => Int.ofNat (a ^^^ b)

/-- Python `>> k` (arithmetic right shift, i.e. floor division by `2^k`). -/
def pyShr : ℤ → ℕ → ℤ
  | Int.ofNat a, k => Int.ofNat (a >>> k)
  | Int.negSucc a, k => Int.negSucc (a >>> k)

/-- Python `<< k`, which on unbounded integers is exact multiplication by `2^k`. -/
def pyShl (n : ℤ) (k : ℕ) : ℤ := n * 2 ^ k

/-- Python `& 0xFFFFFFFF`: the low 32 bits of the two's-complement
representation (for `-(a+1)` these are the complement of the low 32 bits
of `a`). -/
def pyAnd32 : ℤ → ℤ
  | Int.ofNat a => Int.ofNat (a &&& 0xFFFFFFFF)
  | Int.negSucc a => Int.ofNat (0xFFFFFFFF ^^^ (a &&& 0xFFFFFFFF))

/-! ### The noise hash (`_hash_int`, `_rand2`) -/

/-- Translation of `_hash_int` from `organic_flowfield.py`.  Note the code
performs every avalanche step on the unbounded Python integer and applies
`& 0xFFFFFFFF` once, at the very end. -/
def _hash_int (n0 : ℤ) : ℤ :=
  let n1 := pyXor (pyXor n0 61) (pyShr n0 16)
  let n2 := n1 + pyShl n1 3
  let n3 := pyXor n2 (pyShr n2 4)
  let n4 := n3 * 0x27D4EB2D
  let n5 := pyXor n4 (pyShr n4 15)
  pyAnd32 n5

/-- Translation of `_rand2`: hash the combined lattice coordinates and
seed, then map to `[0,1)` by dividing by `2^32`. -/
noncomputable def _rand2 (ix iy seed : ℤ) : ℝ :=
  ((_hash_int (ix * 374761393 + iy * 668265263 + seed * 362437) : ℤ) : ℝ) / 2 ^ 32

/-! ### Fade, lerp, value noise, fBm -/

/-- Translation of `_fade` (Perlin quintic fade curve). -/
def _fade (t : ℝ) : ℝ := t * t * t * (t * (t * 6 - 15) + 10)

/-- Translation of `_lerp`. -/
def _lerp (a b t : ℝ) : ℝ := a + (b - a) * t

/-- Translation of `value_noise_2d`: bilinear interpolation (with faded
weights) of the hash values at the four surrounding lattice corners. -/
noncomputable def value_noise_2d (x y : ℝ) (seed : ℤ) : ℝ :=
  let x0 : ℤ := ⌊x⌋
  let y0 : ℤ := ⌊y⌋
  let x1 : ℤ := x0 + 1
  let y1 : ℤ := y0 + 1
  let sx := _fade (x - x0)
  let sy := _fade (y - y0)
  let n00 := _rand2 x0 y0 seed
  let n10 := _rand2 x1 y0 seed
  let n01 := _rand2 x0 y1 seed
  let n11 := _rand2 x1 y1 seed
  let ix0 := _lerp n00 n10 sx
  let ix1 := _lerp n01 n11 sx
  _lerp ix0 ix1 sy

/-- State-passing translation of the `for o in range(octaves)` loop body of
`fbm_2d`: first argument is the number of iterations still to run, then the
loop counter `o` and the mutable state `amp`, `freq`, `total`, `norm` in the
order the Python code updates them (`total`, `norm` are read before `amp`,
`freq` are scaled for the next octave). -/
noncomputable def fbmLoop (x y : ℝ) (seed : ℤ) (lacunarity gain : ℝ) :
    ℕ → ℕ → ℝ → ℝ → ℝ → ℝ → ℝ × ℝ
  | 0, _o, _amp, _freq, total, norm => (total, norm)
  | k + 1, o, amp, freq, total, norm =>
      fbmLoop x y seed lacunarity gain k (o + 1) (amp * gain) (freq * lacunarity)
        (total + amp * value_noise_2d (x * freq) (y * freq) (seed + 1013 * o))
        (norm + amp)

/-- Translation of `fbm_2d`.  `octaves` is `ℕ`: Python's `range(octaves)` is
empty for every `octaves < 1`, so `0` covers all non-positive values. -/
noncomputable def fbm_2d (x y : ℝ) (seed : ℤ) (octaves : ℕ) (lacunarity gain : ℝ) : ℝ :=
  let tn := fbmLoop x y seed lacunarity gain octaves 0 1 1 0 0
  tn.1 / max tn.2 1e-9

/-! ### Spec-side hash definitions (for the refinement comparison of claim C5) -/

/-- Modelled from the claim's words: the avalanche with the value masked to
32 bits after every step, starting from the combined coordinates reduced to
an unsigned 32-bit integer. -/
def hash_mix_stepmask (ix iy seed : ℤ) : ℕ :=
  let n0 : ℕ := ((ix * 374761393 + iy * 668265263 + seed * 362437) % 2 ^ 32).toNat
  let n1 := ((n0 ^^^ 61) ^^^ (n0 >>> 16)) % 2 ^ 32
  let n2 := (n1 + (n1 <<< 3)) % 2 ^ 32
  let n3 := (n2 ^^^ (n2 >>> 4)) % 2 ^ 32
  let n4 := (n3 * 0x27D4EB2D) % 2 ^ 32
  (n4 ^^^ (n4 >>> 15)) % 2 ^ 32

/-- Modelled from the amended claim's words: the same combine and avalanche
computed over unbounded (Python) integers, with a single mask to 32 bits at
the very end. -/
def hash_mix_endmask (ix iy seed : ℤ) : ℤ :=
  let n0 := ix * 374761393 + iy * 668265263 + seed * 362437
  let n1 := pyXor (pyXor n0 61) (pyShr n0 16)
  let n2 := n1 + pyShl n1 3
  let n3 := pyXor n2 (pyShr n2 4)
  let n4 := n3 * 0x27D4EB2D
  pyAnd32 (pyXor n4 (pyShr n4 15))

/-! ### The flow tracer

`generate_flowfield_svg` builds each polyline with the loop

    pts = [(x, y)]
    for _s in range(steps_per_line):
        n = fbm_2d(x * field_scale, y * field_scale, seed, octaves)
        angle = (2.0 * math.pi * angle_turns) * n
        x += cos(angle) * step_len; y += sin(angle) * step_len
        if not inside(x, y): break
        pts.append((x, y))

The loop is embedded parametrically in the sampled field `f` (the code
instantiates `f` with `fbm_2d` at the configured seed and octaves, see
`fbmField`) and in the bounds predicate `inside` (the code uses the margin
rectangle test, see `insideRect`). -/

/-- One step of the trace loop: sample the field at the current position
scaled by `fieldScale`, convert the sample to a heading angle and advance
by `stepLen`. -/
noncomputable def traceStep (f : ℝ → ℝ → ℝ) (fieldScale stepLen turns : ℝ)
    (p : ℝ × ℝ) : ℝ × ℝ :=
  let n := f (p.1 * fieldScale) (p.2 * fieldScale)
  let angle := 2 * Real.pi * turns * n
  (p.1 + Real.cos angle * stepLen, p.2 + Real.sin angle * stepLen)

/-- The trace loop after the initial point: at most `k` more steps; a moved
point that fails `inside` is discarded and the loop stops. -/
noncomputable def traceGo (f : ℝ → ℝ → ℝ) (fieldScale stepLen turns : ℝ)
    (inside : ℝ × ℝ → Bool) : ℕ → ℝ × ℝ → List (ℝ × ℝ)
  | 0, _p => []
  | k + 1, p =>
      let q := traceStep f fieldScale stepLen turns p
      if inside q then q :: traceGo f fieldScale stepLen turns inside k q else []

/-- The full trace: the start point followed by up to `steps` stepped points. -/
noncomputable def trace (f : ℝ → ℝ → ℝ) (fieldScale stepLen turns : ℝ)
    (inside : ℝ × ℝ → Bool) (steps : ℕ) (start : ℝ × ℝ) : List (ℝ × ℝ) :=
  start :: traceGo f fieldScale stepLen turns inside steps start

/-- The field the flowfield script feeds to the trace loop:
`fbm_2d(nx, ny, cfg.seed, octaves=cfg.octaves)` with the source defaults
`lacunarity=2.0`, `gain=0.5`. -/
noncomputable def fbmField (seed : ℤ) (octaves : ℕ) : ℝ → ℝ → ℝ :=
  fun u v => fbm_2d u v seed octaves 2 (1 / 2)

/-- The `inside` closure of `generate_flowfield_svg`: the margin rectangle test. -/
noncomputable def insideRect (margin width height : ℝ) (p : ℝ × ℝ) : Bool :=
  decide (margin ≤ p.1 ∧ p.1 ≤ width - margin ∧ margin ≤ p.2 ∧ p.2 ≤ height - margin)

/-! ### Catmull-Rom to Bezier conversion and blob contours
(`organic_with_blobs.py`) -/

/-- A 2D point, matching `Point = Tuple[float, float]`. -/
abbrev Point : Type := ℝ × ℝ

/-- A cubic Bezier segment `(P0, C1, C2, P3)` as appended by
`catmull_rom_to_beziers`. -/
abbrev Seg : Type := Point × Point × Point × Point

/-- The zero point, used as the junk default of out-of-range `List.getD`
lookups (never reached at in-range indices). -/
def pt0 : Point := ((0 : ℝ), (0 : ℝ))

/-- Junk default segment for `List.getD`. -/
def seg0 : Seg := (pt0, pt0, pt0, pt0)

/-- Python's `k % n` on integers (result has the sign of the divisor, so it
is in `[0, n)` for `n > 0`), returned as the `ℕ` list index it is used as.
`Int.emod` has exactly Python's sign convention. -/
def pyIdx (k : ℤ) (n : ℕ) : ℕ := (k % (n : ℤ)).toNat

/-- Loop body of `catmull_rom_to_beziers` in the `closed=True` branch:
the 4-point stencil at indices `(i-1, i, i+1, i+2) mod n` and the
Catmull-Rom to Bezier control-point formulas with tension scaling. -/
noncomputable def catmullSegClosed (points : List Point) (tension : ℝ) (i : ℕ) : Seg :=
  let n := points.length
  let p0 := points.getD (pyIdx ((i : ℤ) - 1) n) pt0
  let p1 := points.getD (pyIdx ((i : ℤ)) n) pt0
  let p2 := points.getD (pyIdx ((i : ℤ) + 1) n) pt0
  let p3 := points.getD (pyIdx ((i : ℤ) + 2) n) pt0
  let t := tension
  let c1 := (p1.1 + (p2.1 - p0.1) / 6 * t, p1.2 + (p2.2 - p0.2) / 6 * t)
  let c2 := (p2.1 - (p3.1 - p1.1) / 6 * t, p2.2 - (p3.2 - p1.2) / 6 * t)
  (p1, c1, c2, p2)

/-- Loop body of `catmull_rom_to_beziers` in the `closed=False` branch:
indices clamped with `max(i-1,0)` / `min(i+1,n-1)` / `min(i+2,n-1)`
(`ℕ` subtraction is exactly `max(i-1,0)` for `i ≥ 0`). -/
noncomputable def catmullSegOpen (points : List Point) (tension : ℝ) (i : ℕ) : Seg :=
  let n := points.length
  let p0 := points.getD (i - 1) pt0
  let p1 := points.getD (pyIdx ((i : ℤ)) n) pt0
  let p2 := points.getD (min (i + 1) (n - 1)) pt0
  let p3 := points.getD (min (i + 2) (n - 1)) pt0
  let t := tension
  let c1 := (p1.1 + (p2.1 - p0.1) / 6 * t, p1.2 + (p2.2 - p0.2) / 6 * t)
  let c2 := (p2.1 - (p3.1 - p1.1) / 6 * t, p2.2 - (p3.2 - p1.2) / 6 * t)
  (p1, c1, c2, p2)

/-- Translation of `catmull_rom_to_beziers`.  The `raise ValueError` on
fewer than 4 points becomes `Except.error`.  In the open branch the
`if not closed and i == n - 2: break` after the final append is redundant
(the `range(n - 1)` loop ends there anyway), so the branch is the first
`n - 1` segments. -/
noncomputable def catmull_rom_to_beziers (points : List Point) (closed : Bool) (tension : ℝ) :
    Except String (List Seg) :=
  let n := points.length
  if n < 4 then Except.error "Need at least 4 points for Catmull-Rom."
  else Except.ok
    (if closed then (List.range n).map (catmullSegClosed points tension)
     else (List.range (n - 1)).map (catmullSegOpen points tension))

/-- Ring construction of `blob_path_d`: `n_points` perturbed circle points.
The single `rng.uniform(0, 2*pi)` draw of the source is passed in
explicitly as `ang0` (the rng is an external collaborator).  The noise is
`fbm_2d` with the source defaults `lacunarity=2.0`, `gain=0.5`.
`n_points : ℕ` since `range(n_points)` is empty for negative values. -/
noncomputable def blob_points (center : Point) (base_r ang0 : ℝ) (seed : ℤ)
    (scale : ℝ) (octaves : ℕ) (n_points : ℕ) (roughness : ℝ) : List Point :=
  (List.range n_points).map fun (i : ℕ) =>
    let a := ang0 + 2 * Real.pi * ((i : ℝ) / (n_points : ℝ))
    let nx := (center.1 + Real.cos a * base_r) * scale
    let ny := (center.2 + Real.sin a * base_r) * scale
    let n := fbm_2d nx ny seed octaves 2 (1 / 2)
    let dv := (n - 1 / 2) * 2
    let r := base_r * (1 + dv * roughness)
    (center.1 + Real.cos a * r, center.2 + Real.sin a * r)

/-- Translation of `blob_path_d` up to the segment list: build the
perturbed ring and convert it with `catmull_rom_to_beziers(closed=True)`.
The final SVG `d`-string serialization of the segments is the external
rendering collaborator's formatting and is not part of the verified core. -/
noncomputable def blob_path_d (center : Point) (base_r ang0 : ℝ) (seed : ℤ)
    (scale : ℝ) (octaves : ℕ) (n_points : ℕ) (roughness tension : ℝ) :
    Except String (List Seg) :=
  catmull_rom_to_beziers
    (blob_points center base_r ang0 seed scale octaves n_points roughness)
    true tension

/-! ### Range of the hash and of `_rand2` -/

lemma pyAnd32_nonneg (n : ℤ) : 0 ≤ pyAnd32 n := by
  cases n with
  | ofNat a => exact Int.ofNat_nonneg _
  | negSucc a => exact Int.ofNat_nonneg _

lemma pyAnd32_lt (n : ℤ) : pyAnd32 n < 2 ^ 32 := by
  cases n with
  | ofNat a =>
      have h : a &&& 0xFFFFFFFF < 2 ^ 32 :=
        Nat.lt_of_le_of_lt Nat.and_le_right (by norm_num)
      show ((a &&& 0xFFFFFFFF : ℕ) : ℤ) < 2 ^ 32
      exact_mod_cast h
  | negSucc a =>
      have h : 0xFFFFFFFF ^^^ (a &&& 0xFFFFFFFF) < 2 ^ 32 :=
        Nat.xor_lt_two_pow (by norm_num)
          (Nat.lt_of_le_of_lt Nat.and_le_right (by norm_num))
      show ((0xFFFFFFFF ^^^ (a &&& 0xFFFFFFFF) : ℕ) : ℤ) < 2 ^ 32
      exact_mod_cast h

lemma _hash_int_nonneg (n : ℤ) : 0 ≤ _hash_int n := pyAnd32_nonneg _

lemma _hash_int_lt (n : ℤ) : _hash_int n < 2 ^ 32 := pyAnd32_lt _

lemma _rand2_nonneg (ix iy seed : ℤ) : 0 ≤ _rand2 ix iy seed := by
  unfold _rand2
  have h := _hash_int_nonneg (ix * 374761393 + iy * 668265263 + seed * 362437)
  positivity

lemma _rand2_lt_one (ix iy seed : ℤ) : _rand2 ix iy seed < 1 := by
  unfold _rand2
  rw [div_lt_one (by positivity)]
  have h := _hash_int_lt (ix * 374761393 + iy * 668265263 + seed * 362437)
  calc ((_hash_int (ix * 374761393 + iy * 668265263 + seed * 362437) : ℤ) : ℝ)
      < ((2 ^ 32 : ℤ) : ℝ) := by exact_mod_cast h
    _ = 2 ^ 32 := by norm_num

lemma _rand2_mem (ix iy seed : ℤ) : 0 ≤ _rand2 ix iy seed ∧ _rand2 ix iy seed ≤ 1 :=
  ⟨_rand2_nonneg ix iy seed, (_rand2_lt_one ix iy seed).le⟩

/-! ### Range of fade, lerp and the noise field -/

lemma _fade_nonneg (t : ℝ) (h0 : 0 ≤ t) : 0 ≤ _fade t := by
  have hq : 0 < t * (t * 6 - 15) + 10 := by nlinarith [sq_nonneg (4 * t - 5)]
  have hc : 0 ≤ t * t * t := by positivity
  unfold _fade
  exact mul_nonneg hc hq.le

lemma _fade_le_one (t : ℝ) (h0 : 0 ≤ t) (h1 : t ≤ 1) : _fade t ≤ 1 := by
  have key : 1 - _fade t = (1 - t) ^ 3 * (6 * t ^ 2 + 3 * t + 1) := by
    unfold _fade; ring
  have hp : (0 : ℝ) ≤ (1 - t) ^ 3 := pow_nonneg (by linarith) 3
  have hq : (0 : ℝ) ≤ 6 * t ^ 2 + 3 * t + 1 := by nlinarith [sq_nonneg t]
  have h2 : 0 ≤ (1 - t) ^ 3 * (6 * t ^ 2 + 3 * t + 1) := mul_nonneg hp hq
  linarith

lemma _lerp_mem (a b t : ℝ) (ha0 : 0 ≤ a) (ha1 : a ≤ 1) (hb0 : 0 ≤ b) (hb1 : b ≤ 1)
    (ht0 : 0 ≤ t) (ht1 : t ≤ 1) : 0 ≤ _lerp a b t ∧ _lerp a b t ≤ 1 := by
  unfold _lerp
  constructor
  · nlinarith
  · nlinarith

lemma value_noise_2d_mem (x y : ℝ) (seed : ℤ) :
    0 ≤ value_noise_2d x y seed ∧ value_noise_2d x y seed ≤ 1 := by
  have hxf := Int.floor_le x
  have hxc := Int.lt_floor_add_one x
  have hyf := Int.floor_le y
  have hyc := Int.lt_floor_add_one y
  have hsx0 : 0 ≤ _fade (x - (⌊x⌋ : ℝ)) := _fade_nonneg _ (by linarith)
  have hsx1 : _fade (x - (⌊x⌋ : ℝ)) ≤ 1 := _fade_le_one _ (by linarith) (by linarith)
  have hsy0 : 0 ≤ _fade (y - (⌊y⌋ : ℝ)) := _fade_nonneg _ (by linarith)
  have hsy1 : _fade (y - (⌊y⌋ : ℝ)) ≤ 1 := _fade_le_one _ (by linarith) (by linarith)
  have h00 := _rand2_mem ⌊x⌋ ⌊y⌋ seed
  have h10 := _rand2_mem (⌊x⌋ + 1) ⌊y⌋ seed
  have h01 := _rand2_mem ⌊x⌋ (⌊y⌋ + 1) seed
  have h11 := _rand2_mem (⌊x⌋ + 1) (⌊y⌋ + 1) seed
  have hix0 := _lerp_mem _ _ _ h00.1 h00.2 h10.1 h10.2 hsx0 hsx1
  have hix1 := _lerp_mem _ _ _ h01.1 h01.2 h11.1 h11.2 hsx0 hsx1
  have hout := _lerp_mem _ _ _ hix0.1 hix0.2 hix1.1 hix1.2 hsy0 hsy1
  simpa [value_noise_2d] using hout

/-! ### The fBm loop invariant -/

lemma fbmLoop_invariant (x y : ℝ) (seed : ℤ) (lac gain : ℝ) (hg : 0 ≤ gain) :
    ∀ (k o : ℕ) (amp freq total norm : ℝ), 0 ≤ amp → 0 ≤ total → total ≤ norm →
      0 ≤ (fbmLoop x y seed lac gain k o amp freq total norm).1 ∧
      (fbmLoop x y seed lac gain k o amp freq total norm).1 ≤
        (fbmLoop x y seed lac gain k o amp freq total norm).2 ∧
      norm ≤ (fbmLoop x y seed lac gain k o amp freq total norm).2 := by
  intro k
  induction k with
  | zero =>
      intro o amp freq total norm _ha ht htn
      simp only [fbmLoop]
      exact ⟨ht, htn, le_refl _⟩
  | succ k ih =>
      intro o amp freq total norm ha ht htn
      have hv := value_noise_2d_mem (x * freq) (y * freq) (seed + 1013 * (o : ℤ))
      have h1 : 0 ≤ amp * gain := mul_nonneg ha hg
      have h2 : 0 ≤ total + amp * value_noise_2d (x * freq) (y * freq) (seed + 1013 * (o : ℤ)) := by
        nlinarith [hv.1]
      have h3 : total + amp * value_noise_2d (x * freq) (y * freq) (seed + 1013 * (o : ℤ)) ≤
          norm + amp := by nlinarith [hv.2]
      have h4 : norm ≤ norm + amp := by linarith
      have hrec := ih (o + 1) (amp * gain) (freq * lac) _ _ h1 h2 h3
      simp only [fbmLoop]
      exact ⟨hrec.1, hrec.2.1, le_trans h4 hrec.2.2⟩

/-- C1: for every real input, every integer seed, and every field
configuration with `octaves ≥ 1`, `lacunarity > 0` and `gain ∈ (0,1)`, the
fractal field sample `fbm_2d x y seed octaves lacunarity gain` lies in the
closed interval `[0,1]`. -/
theorem fbm_2d_mem_unitInterval (x y : ℝ) (seed : ℤ) (octaves : ℕ)
    (lacunarity gain : ℝ) (hoct : 1 ≤ octaves) (_hlac : 0 < lacunarity)
    (hg0 : 0 < gain) (hg1 : gain < 1) :
    0 ≤ fbm_2d x y seed octaves lacunarity gain ∧
    fbm_2d x y seed octaves lacunarity gain ≤ 1 := by
  obtain ⟨k, rfl⟩ : ∃ k, octaves = k + 1 := ⟨octaves - 1, by omega⟩
  have hv := value_noise_2d_mem (x * 1) (y * 1) (seed + 1013 * ((0 : ℕ) : ℤ))
  set tn := fbmLoop x y seed lacunarity gain k 1 (1 * gain) (1 * lacunarity)
    (0 + 1 * value_noise_2d (x * 1) (y * 1) (seed + 1013 * ((0 : ℕ) : ℤ))) (0 + 1) with htn
  have hinv := fbmLoop_invariant x y seed lacunarity gain hg0.le k 1
    (1 * gain) (1 * lacunarity)
    (0 + 1 * value_noise_2d (x * 1) (y * 1) (seed + 1013 * ((0 : ℕ) : ℤ))) (0 + 1)
    (by positivity) (by nlinarith [hv.1]) (by nlinarith [hv.2])
  have hstep : fbmLoop x y seed lacunarity gain (k + 1) 0 1 1 0 0 = tn := by
    rw [htn]
    simp only [fbmLoop]
  have hfb : fbm_2d x y seed (k + 1) lacunarity gain =
      (fbmLoop x y seed lacunarity gain (k + 1) 0 1 1 0 0).1 /
        max (fbmLoop x y seed lacunarity gain (k + 1) 0 1 1 0 0).2 1e-9 := rfl
  rw [hfb, hstep]
  have h1 : (1 : ℝ) ≤ tn.2 := by
    have := hinv.2.2
    linarith
  have hmax : max tn.2 1e-9 = tn.2 := max_eq_left (by nlinarith)
  rw [hmax]
  constructor
  · exact div_nonneg hinv.1 (by linarith)
  · rw [div_le_one (by linarith)]
    exact hinv.2.1

/-- Witness for C1 at the concrete configuration
`x = 0, y = 0, seed = 0, octaves = 1, lacunarity = 2, gain = 1/2`. -/
theorem fbm_2d_mem_unitInterval_witness :
    (1 ≤ 1 ∧ (0 : ℝ) < 2 ∧ (0 : ℝ) < 1 / 2 ∧ (1 / 2 : ℝ) < 1) ∧
    0 ≤ fbm_2d 0 0 0 1 2 (1 / 2) ∧ fbm_2d 0 0 0 1 2 (1 / 2) ≤ 1 :=
  ⟨⟨le_refl 1, by norm_num, by norm_num, by norm_num⟩,
    fbm_2d_mem_unitInterval 0 0 0 1 2 (1 / 2) (le_refl 1) (by norm_num)
      (by norm_num) (by norm_num)⟩

/-- C7: with a single octave (and the documented `lacunarity = 2.0`,
`gain = 0.5`) the fractal field reduces exactly to the one-layer value
noise field. -/
theorem fbm_2d_single_octave_identity (x y : ℝ) (seed : ℤ) :
    fbm_2d x y seed 1 2 (1 / 2) = value_noise_2d x y seed := by
  have hmax : max (0 + 1 : ℝ) 1e-9 = 1 := by norm_num
  simp only [fbm_2d, fbmLoop, hmax]
  push_cast
  norm_num

/-- C10: at integer lattice coordinates the value noise field returns the
corner hash exactly (the fractional offsets vanish, `fade 0 = 0`, and
`lerp a b 0 = a`). -/
theorem value_noise_2d_lattice_eq_rand2 (i j seed : ℤ) :
    value_noise_2d (i : ℝ) (j : ℝ) seed = _rand2 i j seed := by
  simp [value_noise_2d, _fade, _lerp, Int.floor_intCast]

/-- C5 counterexample: already at `(ix, iy, seed) = (0, 0, 0)` the hash the
code computes (one mask at the very end) differs from the claim's
procedure that masks to 32 bits after every avalanche step. -/
theorem hash_stepmask_counterexample :
    _hash_int (0 * 374761393 + 0 * 668265263 + 0 * 362437) ≠
      (hash_mix_stepmask 0 0 0 : ℤ) := by decide

/-- C5 amended: the code combines `n = ix*374761393 + iy*668265263 +
seed*362437` and applies the avalanche over unbounded (Python) integers
with a single mask to 32 bits at the end, yielding an unsigned 32-bit
value that `_rand2` maps into `[0,1)` by dividing by `2^32`. -/
theorem hash_endmask_range (ix iy seed : ℤ) :
    _hash_int (ix * 374761393 + iy * 668265263 + seed * 362437) =
      hash_mix_endmask ix iy seed ∧
    0 ≤ hash_mix_endmask ix iy seed ∧ hash_mix_endmask ix iy seed < 2 ^ 32 ∧
    _rand2 ix iy seed = ((hash_mix_endmask ix iy seed : ℤ) : ℝ) / 2 ^ 32 ∧
    0 ≤ _rand2 ix iy seed ∧ _rand2 ix iy seed < 1 := by
  refine ⟨rfl, ?_, ?_, ?_, _rand2_nonneg ix iy seed, _rand2_lt_one ix iy seed⟩
  · exact pyAnd32_nonneg _
  · exact pyAnd32_lt _
  · rfl

/-! ### Trace loop lemmas -/

lemma traceGo_length_le (f : ℝ → ℝ → ℝ) (fieldScale stepLen turns : ℝ)
    (inside : ℝ × ℝ → Bool) :
    ∀ (k : ℕ) (p : ℝ × ℝ), (traceGo f fieldScale stepLen turns inside k p).length ≤ k := by
  intro k
  induction k with
  | zero => intro p; simp [traceGo]
  | succ k ih =>
      intro p
      simp only [traceGo]
      by_cases h : inside (traceStep f fieldScale stepLen turns p) = true
      · rw [if_pos h]
        simpa using ih _
      · rw [if_neg h]
        simp

lemma traceGo_early_stop (f : ℝ → ℝ → ℝ) (fieldScale stepLen turns : ℝ)
    (inside : ℝ × ℝ → Bool) :
    ∀ (k : ℕ) (p d : ℝ × ℝ),
      (traceGo f fieldScale stepLen turns inside k p).length < k →
      inside (traceStep f fieldScale stepLen turns
        ((p :: traceGo f fieldScale stepLen turns inside k p).getLastD d)) = false := by
  intro k
  induction k with
  | zero => intro p d h; omega
  | succ k ih =>
      intro p d h
      by_cases hq : inside (traceStep f fieldScale stepLen turns p) = true
      · have hgo : traceGo f fieldScale stepLen turns inside (k + 1) p =
            traceStep f fieldScale stepLen turns p ::
              traceGo f fieldScale stepLen turns inside k
                (traceStep f fieldScale stepLen turns p) := by
          simp only [traceGo]
          rw [if_pos hq]
        rw [hgo] at h ⊢
        rw [List.getLastD_cons]
        exact ih _ p (by simpa using h)
      · have hgo : traceGo f fieldScale stepLen turns inside (k + 1) p = [] := by
          simp only [traceGo]
          rw [if_neg hq]
        rw [hgo]
        simp only [List.getLastD_cons, List.getLastD_nil]
        exact Bool.not_eq_true _ ▸ Bool.of_not_eq_true hq

lemma traceGo_length_of_all_inside (f : ℝ → ℝ → ℝ) (fieldScale stepLen turns : ℝ)
    (inside : ℝ × ℝ → Bool) :
    ∀ (k : ℕ) (p : ℝ × ℝ),
      (∀ i, 1 ≤ i → i ≤ k →
        inside ((traceStep f fieldScale stepLen turns)^[i] p) = true) →
      (traceGo f fieldScale stepLen turns inside k p).length = k := by
  intro k
  induction k with
  | zero => intro p _h; simp [traceGo]
  | succ k ih =>
      intro p h
      have hq : inside (traceStep f fieldScale stepLen turns p) = true := by
        have h1 := h 1 (le_refl 1) (by omega)
        rwa [Function.iterate_one] at h1
      simp only [traceGo]
      rw [if_pos hq]
      have hrest := ih (traceStep f fieldScale stepLen turns p) (fun i hi hik => by
        have := h (i + 1) (by omega) (by omega)
        rwa [Function.iterate_succ_apply] at this)
      simp [hrest]

/-- C3 (amended): the trace never returns more than `steps + 1` points, and
whenever it stops before exhausting `steps`, the stepped successor of the
last returned point is the point that failed `boundsCheck` (the
out-of-bounds point itself is discarded, not returned). -/
theorem trace_length_le_and_early_stop (f : ℝ → ℝ → ℝ) (fieldScale stepLen turns : ℝ)
    (inside : ℝ × ℝ → Bool) (steps : ℕ) (start : ℝ × ℝ) :
    (trace f fieldScale stepLen turns inside steps start).length ≤ steps + 1 ∧
    ((trace f fieldScale stepLen turns inside steps start).length < steps + 1 →
      inside (traceStep f fieldScale stepLen turns
        ((trace f fieldScale stepLen turns inside steps start).getLastD start)) = false) := by
  constructor
  · have := traceGo_length_le f fieldScale stepLen turns inside steps start
    simp only [trace, List.length_cons]
    omega
  · intro h
    have hlen : (traceGo f fieldScale stepLen turns inside steps start).length < steps := by
      simp only [trace, List.length_cons] at h
      omega
    exact traceGo_early_stop f fieldScale stepLen turns inside steps start start hlen

/-- Field instance used in the concrete trace scenarios: `fbm_2d` at the
`Config` defaults `seed = 42`, `octaves = 5` (with the fBm defaults
`lacunarity = 2.0`, `gain = 0.5`). -/
noncomputable def fEx : ℝ → ℝ → ℝ := fbmField 42 5

/-- Start point of the concrete trace scenarios. -/
def startEx : ℝ × ℝ := ((0 : ℝ), (0 : ℝ))

/-- A bounds predicate that accepts exactly the first stepped point of the
scenario trace. -/
noncomputable def insideEx : ℝ × ℝ → Bool :=
  fun p => decide (p = traceStep fEx 1 1 1 startEx)

/-- A bounds predicate that always fails. -/
def insideNever : ℝ × ℝ → Bool := fun _ => false

/-- A bounds predicate that always succeeds. -/
def insideAlways : ℝ × ℝ → Bool := fun _ => true

lemma traceStep_ne (f : ℝ → ℝ → ℝ) (fieldScale turns : ℝ) (p : ℝ × ℝ) :
    traceStep f fieldScale 1 turns p ≠ p := by
  intro h
  simp only [traceStep] at h
  rw [Prod.ext_iff] at h
  obtain ⟨h1, h2⟩ := h
  simp only [mul_one] at h1 h2
  have hc : Real.cos (2 * Real.pi * turns * f (p.1 * fieldScale) (p.2 * fieldScale)) = 0 := by
    linarith
  have hs : Real.sin (2 * Real.pi * turns * f (p.1 * fieldScale) (p.2 * fieldScale)) = 0 := by
    linarith
  have hpyth := Real.sin_sq_add_cos_sq
    (2 * Real.pi * turns * f (p.1 * fieldScale) (p.2 * fieldScale))
  rw [hc, hs] at hpyth
  norm_num at hpyth

lemma trace_insideEx_eval :
    trace fEx 1 1 1 insideEx 2 startEx = [startEx, traceStep fEx 1 1 1 startEx] := by
  have h1 : insideEx (traceStep fEx 1 1 1 startEx) = true := by
    unfold insideEx
    exact decide_eq_true rfl
  have h2 : insideEx (traceStep fEx 1 1 1 (traceStep fEx 1 1 1 startEx)) = false := by
    unfold insideEx
    exact decide_eq_false (traceStep_ne fEx 1 1 _)
  simp only [trace, traceGo]
  rw [if_pos h1, if_neg (by rw [h2]; exact Bool.false_ne_true)]

/-- C3 counterexample: a trace that stops before exhausting its 2 steps
(returning 2 of the possible 3 points) whose last returned point PASSES the
bounds predicate — the point that failed the check was discarded, so the
claim "the last point of the returned polyline fails boundsCheck" is false. -/
theorem trace_early_stop_counterexample :
    (trace fEx 1 1 1 insideEx 2 startEx).length < 2 + 1 ∧
    insideEx ((trace fEx 1 1 1 insideEx 2 startEx).getLastD startEx) = true := by
  rw [trace_insideEx_eval]
  constructor
  · simp
  · simp only [List.getLastD_cons, List.getLastD_nil]
    unfold insideEx
    exact decide_eq_true rfl

/-- Witness for the amended C3 at a concrete early-stopping instance. -/
theorem trace_length_le_and_early_stop_witness :
    insideNever (traceStep fEx 1 1 1
      ((trace fEx 1 1 1 insideNever 1 startEx).getLastD startEx)) = false :=
  (trace_length_le_and_early_stop fEx 1 1 1 insideNever 1 startEx).2 (by
    simp [trace, traceGo, insideNever])

/-- C6 counterexample: with `steps = 0` (or a first step immediately out of
bounds) the trace loop returns only the start point, a 1-point polyline,
falsifying "every returned sequence has length ≥ 2". -/
theorem trace_zero_steps_counterexample :
    (trace fEx 1 1 1 insideAlways 0 startEx).length < 2 := by
  simp [trace, traceGo]

/-- C6 (amended): the trace always returns at least 1 point, and it returns
at least 2 points exactly when `steps ≥ 1` and the first stepped point
passes `boundsCheck`. -/
theorem trace_length_pos_two_iff (f : ℝ → ℝ → ℝ) (fieldScale stepLen turns : ℝ)
    (inside : ℝ × ℝ → Bool) (steps : ℕ) (start : ℝ × ℝ) :
    1 ≤ (trace f fieldScale stepLen turns inside steps start).length ∧
    (2 ≤ (trace f fieldScale stepLen turns inside steps start).length ↔
      1 ≤ steps ∧ inside (traceStep f fieldScale stepLen turns start) = true) := by
  constructor
  · simp [trace]
  · cases steps with
    | zero => simp [trace, traceGo]
    | succ k =>
        by_cases h : inside (traceStep f fieldScale stepLen turns start) = true
        · simp only [trace, traceGo]
          rw [if_pos h]
          simp [h]
        · simp only [trace, traceGo]
          rw [if_neg h]
          simp [h]

/-- C8: if `boundsCheck` accepts every point the trace encounters (every
iterate of the step function up to `steps`), the trace returns exactly
`steps + 1` points. -/
theorem trace_all_inbounds_length (f : ℝ → ℝ → ℝ) (fieldScale stepLen turns : ℝ)
    (inside : ℝ × ℝ → Bool) (steps : ℕ) (start : ℝ × ℝ)
    (h : ∀ i, 1 ≤ i → i ≤ steps →
      inside ((traceStep f fieldScale stepLen turns)^[i] start) = true) :
    (trace f fieldScale stepLen turns inside steps start).length = steps + 1 := by
  have := traceGo_length_of_all_inside f fieldScale stepLen turns inside steps start h
  simp [trace, this]

/-- Witness for C8 with the always-true bounds predicate, 3 steps. -/
theorem trace_all_inbounds_length_witness :
    (trace fEx 1 1 1 insideAlways 3 startEx).length = 3 + 1 :=
  trace_all_inbounds_length fEx 1 1 1 insideAlways 3 startEx (fun _i _h1 _h2 => rfl)

/-! ### Degenerate octave count (claim C4) -/

/-- C4 counterexample: a concrete call with `octaves = 0` does not fail —
the loop body never runs and the function silently returns the value `0.0`
(the zero total divided by the epsilon-guarded zero normalization sum). -/
theorem fbm_2d_zero_octaves_counterexample :
    fbm_2d 0 0 0 0 2 (1 / 2) = 0 := by
  simp [fbm_2d, fbmLoop]

/-- C4 (amended): for every `octaves < 1` (Python's `range` is empty for
all such values, so `0` covers them) `fbm_2d` raises no error and silently
returns `0.0` for every input and every lacunarity and gain. -/
theorem fbm_2d_zero_octaves_eq_zero (x y : ℝ) (seed : ℤ) (lacunarity gain : ℝ) :
    fbm_2d x y seed 0 lacunarity gain = 0 := by
  simp [fbm_2d, fbmLoop]

/-! ### Catmull-Rom closure (claims C2 and C9) -/

lemma pyIdx_natCast (j n : ℕ) : pyIdx (j : ℤ) n = j % n := by
  unfold pyIdx
  rw [← Int.natCast_mod]
  exact Int.toNat_natCast _

/-- C2: on a ring of `nPoints ≥ 4` points, the closed Catmull-Rom
conversion succeeds and returns exactly `nPoints` cubic Bezier segments,
and for every `i` the end point of segment `i` equals the start point of
segment `(i+1) mod nPoints` exactly, so the segments form one closed loop. -/
theorem catmull_rom_closed_loop (points : List Point) (tension : ℝ)
    (h4 : 4 ≤ points.length) :
    ∃ segs, catmull_rom_to_beziers points true tension = Except.ok segs ∧
      segs.length = points.length ∧
      ∀ i < points.length,
        (segs.getD i seg0).2.2.2 =
          (segs.getD ((i + 1) % points.length) seg0).1 := by
  refine ⟨(List.range points.length).map (catmullSegClosed points tension), ?_, ?_, ?_⟩
  · unfold catmull_rom_to_beziers
    rw [if_neg (by omega)]
    simp
  · simp
  · intro i hi
    have hn : 0 < points.length := by omega
    have hi2 : (i + 1) % points.length < points.length := Nat.mod_lt _ hn
    have hlen : ((List.range points.length).map (catmullSegClosed points tension)).length =
        points.length := by simp
    rw [List.getD_eq_getElem _ _ (by simpa [hlen] using hi),
      List.getD_eq_getElem _ _ (by simpa [hlen] using hi2)]
    rw [List.getElem_map, List.getElem_map, List.getElem_range, List.getElem_range]
    show points.getD (pyIdx ((i : ℤ) + 1) points.length) pt0 =
      points.getD (pyIdx (((i + 1) % points.length : ℕ) : ℤ) points.length) pt0
    have e1 : pyIdx ((i : ℤ) + 1) points.length = (i + 1) % points.length := by
      have hcast : ((i : ℤ) + 1) = ((i + 1 : ℕ) : ℤ) := by push_cast; ring
      rw [hcast, pyIdx_natCast]
    have e2 : pyIdx (((i + 1) % points.length : ℕ) : ℤ) points.length =
        (i + 1) % points.length := by
      rw [pyIdx_natCast]
      exact Nat.mod_mod_of_dvd _ dvd_rfl
    rw [e1, e2]

/-- Witness for C2 on a concrete 4-point ring. -/
theorem catmull_rom_closed_loop_witness :
    4 ≤ ([((0 : ℝ), (0 : ℝ)), ((1 : ℝ), (0 : ℝ)), ((1 : ℝ), (1 : ℝ)),
        ((0 : ℝ), (1 : ℝ))] : List Point).length ∧
    ∃ segs, catmull_rom_to_beziers
        [((0 : ℝ), (0 : ℝ)), ((1 : ℝ), (0 : ℝ)), ((1 : ℝ), (1 : ℝ)), ((0 : ℝ), (1 : ℝ))]
        true 1 = Except.ok segs ∧
      segs.length = ([((0 : ℝ), (0 : ℝ)), ((1 : ℝ), (0 : ℝ)), ((1 : ℝ), (1 : ℝ)),
        ((0 : ℝ), (1 : ℝ))] : List Point).length ∧
      ∀ i < ([((0 : ℝ), (0 : ℝ)), ((1 : ℝ), (0 : ℝ)), ((1 : ℝ), (1 : ℝ)),
        ((0 : ℝ), (1 : ℝ))] : List Point).length,
        (segs.getD i seg0).2.2.2 =
          (segs.getD ((i + 1) % ([((0 : ℝ), (0 : ℝ)), ((1 : ℝ), (0 : ℝ)),
            ((1 : ℝ), (1 : ℝ)), ((0 : ℝ), (1 : ℝ))] : List Point).length) seg0).1 :=
  ⟨by simp, catmull_rom_closed_loop _ 1 (by simp)⟩

/-- C9: every blob generation call with `nPoints < 4` fails with the
invalid-input `ValueError` before any Bezier segment is emitted. -/
theorem blob_path_d_lt_four_error (center : Point) (base_r ang0 : ℝ) (seed : ℤ)
    (scale : ℝ) (octaves : ℕ) (n_points : ℕ) (roughness tension : ℝ)
    (h : n_points < 4) :
    blob_path_d center base_r ang0 seed scale octaves n_points roughness tension =
      Except.error "Need at least 4 points for Catmull-Rom." := by
  have hlen : (blob_points center base_r ang0 seed scale octaves n_points roughness).length =
      n_points := by
    unfold blob_points
    rw [List.length_map, List.length_range]
  simp only [blob_path_d, catmull_rom_to_beziers, hlen]
  rw [if_pos h]

/-- Witness for C9 at a concrete 3-point blob request. -/
theorem blob_path_d_lt_four_error_witness :
    blob_path_d ((0 : ℝ), (0 : ℝ)) 10 0 0 1 1 3 (1 / 2) 1 =
      Except.error "Need at least 4 points for Catmull-Rom." :=
  blob_path_d_lt_four_error ((0 : ℝ), (0 : ℝ)) 10 0 0 1 1 3 (1 / 2) 1 (by omega)

end Organic
